import Mathlib

/-!
Verification development for the selection-and-editing engine of the repository
(terra-draw select-mode behaviors).

The embedding below translates the behavior classes found in the sources:

* `src/src/modes/select/behaviors/drag-coordinate.behavior.ts` (`DragCoordinateBehavior`)
* `src/src/modes/select/behaviors/scale-feature.behavior.ts` (`ScaleFeatureBehavior`)
* `src/unnamed/part_001` (a `DragFeatureBehavior` variant that clamps the latitude delta)
* `src/unnamed/part_002` (two further `DragFeatureBehavior` variants: the first with a
  latitude-clamping pass followed by a rejecting update loop, the second with a rejecting
  update loop that also limits coordinate precision)

Modelling conventions:

* JavaScript numbers are modelled as rationals (`ℚ`).
* `store.getGeometryCopy(id)` is modelled by passing the stored geometry as an argument
  (the store hands out defensive copies, so the behavior only ever sees a value).
* `store.updateGeometry([...])` is modelled by the returned `Option Geometry`: `some g`
  means the batch (feature plus recomputed selection-point/mid-point handles, which are
  pure functions of the updated coordinate list) is committed and a Change Record emitted;
  `none` means the store is left untouched, no handles are recomputed and no Change Record
  is emitted.
* The mutable per-gesture fields (`dragPosition`, `lastDistance`) are passed in and
  returned explicitly.
* A polygon is represented by its outer ring (`coordinates[0]`), the only ring the
  behaviors ever read or write.
-/

/-- A `[longitude, latitude]` coordinate pair. -/
abbrev Position : Type := ℚ × ℚ

/-- Embeds `TerraDrawMouseEvent`: geographic position of the pointer plus its container
pixel position. -/
structure MouseEvent where
  lng : ℚ
  lat : ℚ
  containerX : ℚ
  containerY : ℚ
deriving DecidableEq

/-- The closed geometry union handled by the behaviors. A polygon carries its outer ring. -/
inductive Geometry where
  | point (coordinates : Position)
  | lineString (coordinates : List Position)
  | polygon (ring : List Position)
deriving DecidableEq

/-- Embeds the shared `geometry.type === "LineString" / "Polygon"` dispatch: the coordinate
list the behaviors operate on (`geometry.coordinates` for a LineString, ring
`geometry.coordinates[0]` for a Polygon), or `none` for a Point. -/
def geomCoordinates : Geometry → Option (List Position)
  | Geometry.point _ => none
  | Geometry.lineString cs => some cs
  | Geometry.polygon ring => some ring

/-- Embeds the `geometry.type === "Polygon"` test. -/
def Geometry.isPolygon : Geometry → Bool
  | Geometry.polygon _ => true
  | _ => false

/-- Modelled from the spec: `limitPrecision` from `src/geometry/limit-decimal-precision`
(file not among the provided sources) rounds a coordinate value to the configured number
of decimal places. -/
def limitPrecision (num : ℚ) (decimalLimit : ℕ) : ℚ :=
  (round (num * 10 ^ decimalLimit) : ℚ) / 10 ^ decimalLimit

/-- A coordinate pair already at the configured precision: rounding it again is a no-op. -/
def Rounded (decimalLimit : ℕ) (c : Position) : Prop :=
  limitPrecision c.1 decimalLimit = c.1 ∧ limitPrecision c.2 decimalLimit = c.2

/-- Embeds the update test `distance < closestCoordinate.dist` of
`DragCoordinateBehavior.isCoordinateNearEvent`, where `closestCoordinate.dist` starts at
`Infinity` (modelled by `none`): every distance beats `Infinity`. -/
def improves (distance : ℚ) : Option (ℚ × ℤ) → Bool
  | none => true
  | some (d, _) => decide (distance < d)

/-- Embeds the index normalization of `isCoordinateNearEvent`: the final polygon
coordinate has no selection point of its own, so the first or last ring index is reported
as `0`. -/
def normIdx (isPoly : Bool) (lastIndex i : ℕ) : ℤ :=
  if isPoly = true ∧ (i = lastIndex ∨ i = 0) then 0 else (i : ℤ)

/-- Embeds the scan loop of `DragCoordinateBehavior.isCoordinateNearEvent`
(`drag-coordinate.behavior.ts` lines 43-62): walk the coordinates in order, keeping the
closest coordinate strictly within `tol` (the configured pointer distance), updating only
on a strict improvement, and storing the normalized index. `measure` is the injected
`PixelDistanceBehavior.measure`. -/
def closestLoop (measure : MouseEvent → Position → ℚ) (tol : ℚ) (event : MouseEvent)
    (isPoly : Bool) (lastIndex : ℕ) :
    List Position → ℕ → Option (ℚ × ℤ) → Option (ℚ × ℤ)
  | [], _, best => best
  | coord :: rest, i, best =>
      let distance := measure event coord
      let best1 :=
        if distance < tol ∧ improves distance best = true then
          some (distance, normIdx isPoly lastIndex i)
        else best
      closestLoop measure tol event isPoly lastIndex rest (i + 1) best1

/-- Embeds `DragCoordinateBehavior.isCoordinateNearEvent`
(`drag-coordinate.behavior.ts` lines 20-66): `-1` for Points and when no coordinate is
strictly within the pointer distance, otherwise the (normalized) index of the closest
coordinate found by the scan loop started at `{dist: Infinity, index: -1}`. -/
def isCoordinateNearEvent (measure : MouseEvent → Position → ℚ) (pointerDistance : ℚ)
    (event : MouseEvent) (geometry : Geometry) : ℤ :=
  match geomCoordinates geometry with
  | none => -1
  | some geomCoords =>
      match closestLoop measure pointerDistance event geometry.isPolygon
          (geomCoords.length - 1) geomCoords 0 none with
      | none => -1
      | some (_, index) => index

/-- Embeds `DragCoordinateBehavior.drag` (`drag-coordinate.behavior.ts` lines 68-112):
relocate the coordinate at `index` to the event position; for a polygon whose `index` is
the first or last ring index, write both ring ends. The committed coordinates are exactly
`[event.lng, event.lat]` — no precision limiting is applied in this behavior. Returns
`none` (drag returns `false`, nothing committed) for Points, `some` of the committed
geometry (drag returns `true`) otherwise. -/
def dragCoordinate (event : MouseEvent) (geometry : Geometry) (index : ℕ) :
    Option Geometry :=
  match geometry with
  | Geometry.point _ => none
  | Geometry.lineString cs =>
      some (Geometry.lineString (cs.set index (event.lng, event.lat)))
  | Geometry.polygon ring =>
      let updatedCoordinate : Position := (event.lng, event.lat)
      if index = ring.length - 1 ∨ index = 0 then
        some (Geometry.polygon
          ((ring.set 0 updatedCoordinate).set (ring.length - 1) updatedCoordinate))
      else
        some (Geometry.polygon (ring.set index updatedCoordinate))

/-- The invariant carried by `closestLoop` over the processed prefix `done`: either
nothing qualified yet (`none`, all processed distances at least `tol`), or the stored
pair is the distance and normalized index of the first closest qualifying processed
coordinate. -/
def ClosestInv (measure : MouseEvent → Position → ℚ) (tol : ℚ) (event : MouseEvent)
    (isPoly : Bool) (lastIndex : ℕ) (done : List Position) :
    Option (ℚ × ℤ) → Prop
  | none => ∀ c ∈ done, ¬ measure event c < tol
  | some (d, idx) =>
      ∃ m : ℕ, ∃ hm : m < done.length, d = measure event done[m] ∧
        idx = normIdx isPoly lastIndex m ∧
        measure event done[m] < tol ∧
        (∀ k, ∀ hk : k < done.length, measure event done[m] ≤ measure event done[k]) ∧
        ∀ k, ∀ hk : k < done.length, k < m →
          measure event done[m] < measure event done[k]

/-- The geographic position a coordinate is moved to by a Feature-Drag tick with anchor
`dragPos`: the per-axis delta is `dragPos − mouse` and the coordinate is shifted by its
negation (`coordinate − delta`). -/
def shiftedPosition (dragPos : Position) (event : MouseEvent) (c : Position) : Position :=
  (c.1 - (dragPos.1 - event.lng), c.2 - (dragPos.2 - event.lat))

/-- A coordinate outside the valid geographic range, exactly as tested by the update
loops of both `part_002` variants (lines 131-138 and 291-298). -/
def outOfRange (c : Position) : Prop :=
  c.1 > 180 ∨ c.1 < -180 ∨ c.2 > 90 ∨ c.2 < -90

/-- Embeds one iteration of the update loop of the second `part_002` variant
(lines 280-302): shift the coordinate by `−delta`, return `none` (the whole drag returns
`false`) if the result is out of range, otherwise limit its precision. The range check is
performed on the unrounded values (the source locals `updatedLng`/`updatedLat` are inlined). -/
def shiftCoordPrec (prec : ℕ) (delta : Position) (c : Position) : Option Position :=
  if c.1 - delta.1 > 180 ∨ c.1 - delta.1 < -180 ∨ c.2 - delta.2 > 90 ∨ c.2 - delta.2 < -90
  then none
  else some (limitPrecision (c.1 - delta.1) prec, limitPrecision (c.2 - delta.2) prec)

/-- Embeds one iteration of the update loop of the first `part_002` variant
(lines 120-141): same range check, but the shifted coordinate is committed unrounded
(again with the source's `updatedLng`/`updatedLat` locals inlined). -/
def shiftCoordRaw (delta : Position) (c : Position) : Option Position :=
  if c.1 - delta.1 > 180 ∨ c.1 - delta.1 < -180 ∨ c.2 - delta.2 > 90 ∨ c.2 - delta.2 < -90
  then none
  else some (c.1 - delta.1, c.2 - delta.2)

/-- Embeds the `for (let i = 0; i < upToCoord; i++)` update loops of `part_002`: apply
`shiftFn` to the first `upToCoord` coordinates (each iteration reads its own index only,
so the in-place mutation is a map over that prefix), leave the rest unchanged, and fail
as a whole as soon as one coordinate fails (each variant returns `false` at the first
out-of-range coordinate; the partially mutated defensive copy is discarded). -/
def shiftCoords (shiftFn : Position → Option Position) :
    List Position → ℕ → Option (List Position)
  | [], _ => some []
  | c :: rest, n =>
      if n = 0 then some (c :: rest)
      else
        match shiftFn c, shiftCoords shiftFn rest (n - 1) with
        | some c1, some rest1 => some (c1 :: rest1)
        | _, _ => none

/-- Embeds the ring-closure re-enforcement shared by all three Feature-Drag variants
(`updatedCoords[updatedCoords.length - 1] = [updatedCoords[0][0], updatedCoords[0][1]]`). -/
def closeRing (ring : List Position) : List Position :=
  ring.set (ring.length - 1) ring.headI

/-- Embeds `validateDeltaRange` of `part_001` (lines 74-78) and of the first `part_002`
variant (lines 102-111): clamp the delta so the shifted coordinate stays within
`[lo, hi]`. Both bound tests inspect the shifted coordinate computed from the incoming
delta; the clamped replacement is `bound − position` (note: not `position − bound`). -/
def validateDeltaRange (delta : ℚ) (position lo hi : ℚ) : ℚ :=
  let updatedCoordinate := position - delta
  let d1 := if updatedCoordinate < lo then lo - position else delta
  if updatedCoordinate > hi then hi - position else d1

/-- Embeds the clamping pass of `part_001` (lines 81-85) and of the first `part_002`
variant (lines 114-118): fold `validateDeltaRange` over the latitude of the first
`upToCoord` coordinates (the longitude call is commented out in both sources), with the
clamp of each coordinate overwriting the shared delta seen by the next. -/
def clampLatitudeDelta : Position → List Position → ℕ → Position
  | delta, [], _ => delta
  | delta, c :: rest, n =>
      if n = 0 then delta
      else clampLatitudeDelta (delta.1, validateDeltaRange delta.2 c.2 (-85) 85) rest (n - 1)

/-- Embeds the commit loop of `part_001` (lines 87-90): shift the first `upToCoord`
coordinates uniformly by the (already clamped) delta; no range check, no rounding. -/
def applyDelta (delta : Position) : List Position → ℕ → List Position
  | [], _ => []
  | c :: rest, n =>
      if n = 0 then c :: rest
      else (c.1 - delta.1, c.2 - delta.2) :: applyDelta delta rest (n - 1)

/-- Embeds `DragFeatureBehavior.drag` of the second `part_002` variant (lines 254-343):
rejecting range check plus precision limiting inside the update loop, ring closure for
polygons, and the drag anchor (`this.dragPosition`) advanced to the pointer position
after a successful commit. The result is `(new dragPosition, committed geometry?)`. -/
def dragFeature002v2 (prec : ℕ) (dragPosition : Option Position) (event : MouseEvent)
    (geometry : Geometry) : Option Position × Option Geometry :=
  let mouseCoord : Position := (event.lng, event.lat)
  match geometry with
  | Geometry.point _ => (some mouseCoord, some (Geometry.point mouseCoord))
  | Geometry.lineString cs =>
      match dragPosition with
      | none => (none, none)
      | some dragPos =>
          let delta : Position := (dragPos.1 - mouseCoord.1, dragPos.2 - mouseCoord.2)
          match shiftCoords (shiftCoordPrec prec delta) cs cs.length with
          | none => (some dragPos, none)
          | some cs1 => (some mouseCoord, some (Geometry.lineString cs1))
  | Geometry.polygon ring =>
      match dragPosition with
      | none => (none, none)
      | some dragPos =>
          let delta : Position := (dragPos.1 - mouseCoord.1, dragPos.2 - mouseCoord.2)
          match shiftCoords (shiftCoordPrec prec delta) ring (ring.length - 1) with
          | none => (some dragPos, none)
          | some ring1 => (some mouseCoord, some (Geometry.polygon (closeRing ring1)))

/-- Embeds `DragFeatureBehavior.drag` of the first `part_002` variant (lines 70-182).
The clamping pass (lines 113-118) mutates the outer `delta` of line 96, but the update
loop re-declares `const delta` from `this.dragPosition` (lines 122-125), shadowing the
clamped value; `clampedDelta` below is therefore computed and never read, exactly as in
the source. Coordinates are committed unrounded. -/
def dragFeature002v1 (dragPosition : Option Position) (event : MouseEvent)
    (geometry : Geometry) : Option Position × Option Geometry :=
  let mouseCoord : Position := (event.lng, event.lat)
  match geometry with
  | Geometry.point _ => (some mouseCoord, some (Geometry.point mouseCoord))
  | Geometry.lineString cs =>
      match dragPosition with
      | none => (none, none)
      | some dragPos =>
          let delta : Position := (dragPos.1 - mouseCoord.1, dragPos.2 - mouseCoord.2)
          let clampedDelta := clampLatitudeDelta delta cs cs.length
          match shiftCoords (shiftCoordRaw delta) cs cs.length with
          | none => (some dragPos, none)
          | some cs1 => (some mouseCoord, some (Geometry.lineString cs1))
  | Geometry.polygon ring =>
      match dragPosition with
      | none => (none, none)
      | some dragPos =>
          let delta : Position := (dragPos.1 - mouseCoord.1, dragPos.2 - mouseCoord.2)
          let clampedDelta := clampLatitudeDelta delta ring (ring.length - 1)
          match shiftCoords (shiftCoordRaw delta) ring (ring.length - 1) with
          | none => (some dragPos, none)
          | some ring1 => (some mouseCoord, some (Geometry.polygon (closeRing ring1)))

/-- Follows the claim's words (C9): the first `part_002` variant with the
latitude-clamping pass removed; otherwise identical to `dragFeature002v1`. -/
def dragFeature002v1NoClamp (dragPosition : Option Position) (event : MouseEvent)
    (geometry : Geometry) : Option Position × Option Geometry :=
  let mouseCoord : Position := (event.lng, event.lat)
  match geometry with
  | Geometry.point _ => (some mouseCoord, some (Geometry.point mouseCoord))
  | Geometry.lineString cs =>
      match dragPosition with
      | none => (none, none)
      | some dragPos =>
          let delta : Position := (dragPos.1 - mouseCoord.1, dragPos.2 - mouseCoord.2)
          match shiftCoords (shiftCoordRaw delta) cs cs.length with
          | none => (some dragPos, none)
          | some cs1 => (some mouseCoord, some (Geometry.lineString cs1))
  | Geometry.polygon ring =>
      match dragPosition with
      | none => (none, none)
      | some dragPos =>
          let delta : Position := (dragPos.1 - mouseCoord.1, dragPos.2 - mouseCoord.2)
          match shiftCoords (shiftCoordRaw delta) ring (ring.length - 1) with
          | none => (some dragPos, none)
          | some ring1 => (some mouseCoord, some (Geometry.polygon (closeRing ring1)))

/-- Embeds `DragFeatureBehavior.drag` of `part_001` (lines 42-127): the latitude delta is
clamped per coordinate by the clamping pass (whose result IS used by the commit loop in
this variant), the shifted coordinates are committed without any range check or rounding,
and `this.dragPosition` is never reassigned inside `drag` — the anchor stays where
`startDragging` (or the `position` setter) put it, for the Point branch as well. -/
def dragFeature001 (dragPosition : Option Position) (event : MouseEvent)
    (geometry : Geometry) : Option Position × Option Geometry :=
  let mouseCoord : Position := (event.lng, event.lat)
  match geometry with
  | Geometry.point _ => (dragPosition, some (Geometry.point mouseCoord))
  | Geometry.lineString cs =>
      match dragPosition with
      | none => (none, none)
      | some dragPos =>
          let delta : Position := (dragPos.1 - mouseCoord.1, dragPos.2 - mouseCoord.2)
          let clamped := clampLatitudeDelta delta cs cs.length
          (some dragPos,
            some (Geometry.lineString (applyDelta clamped cs cs.length)))
  | Geometry.polygon ring =>
      match dragPosition with
      | none => (none, none)
      | some dragPos =>
          let delta : Position := (dragPos.1 - mouseCoord.1, dragPos.2 - mouseCoord.2)
          let clamped := clampLatitudeDelta delta ring (ring.length - 1)
          (some dragPos,
            some (Geometry.polygon (closeRing (applyDelta clamped ring (ring.length - 1)))))

/-- Modelled from the spec: the feature centroid used by `ScaleFeatureBehavior`
(`src/geometry/centroid` is not among the provided sources) — the mean of the feature's
coordinate list. -/
def centroidOfCoords (cs : List Position) : Position :=
  ((cs.map Prod.fst).sum / (cs.length : ℚ), (cs.map Prod.snd).sum / (cs.length : ℚ))

/-- Modelled from the spec: `transformScale` (`src/geometry/transform/scale` is not among
the provided sources) applies a uniform affine scale of `factor` about `origin` to a
coordinate. -/
def transformScalePosition (factor : ℚ) (origin c : Position) : Position :=
  (origin.1 + factor * (c.1 - origin.1), origin.2 + factor * (c.2 - origin.2))

/-- Embeds the per-coordinate precision pass of `ScaleFeatureBehavior.scale`
(`scale-feature.behavior.ts` lines 68-71). -/
def roundPosition (prec : ℕ) (c : Position) : Position :=
  (limitPrecision c.1 prec, limitPrecision c.2 prec)

/-- Embeds `ScaleFeatureBehavior.scale` (`scale-feature.behavior.ts` lines 26-86).

The haversine distance from the centroid to the pointer
(`src/geometry/measure/haversine-distance` is not among the provided sources) is modelled
by passing its result `distance` as an argument; it is `0` exactly when the pointer sits
at the centroid. The falsy test `if (!this.lastDistance)` treats both an unset and a zero
`lastDistance` as "no baseline yet". The source computes
`1 - (lastDistance - distance) / distance` unguarded; when `distance = 0` that division
yields a non-finite JavaScript number, which the rational embedding marks by returning
`none` for the whole call. Otherwise the result is
`some (new lastDistance, committed geometry?)`. -/
def scaleStep (prec : ℕ) (lastDistance : Option ℚ) (distance : ℚ) (geometry : Geometry) :
    Option (Option ℚ × Option Geometry) :=
  match geometry with
  | Geometry.point _ => some (lastDistance, none)
  | Geometry.lineString cs =>
      if lastDistance = none ∨ lastDistance = some 0 then some (some distance, none)
      else if distance = 0 then none
      else
        let factor := 1 - (lastDistance.getD 0 - distance) / distance
        let origin := centroidOfCoords cs
        some (some distance, some (Geometry.lineString
          (cs.map (fun c => roundPosition prec (transformScalePosition factor origin c)))))
  | Geometry.polygon ring =>
      if lastDistance = none ∨ lastDistance = some 0 then some (some distance, none)
      else if distance = 0 then none
      else
        let factor := 1 - (lastDistance.getD 0 - distance) / distance
        let origin := centroidOfCoords ring
        some (some distance, some (Geometry.polygon
          (ring.map (fun c => roundPosition prec (transformScalePosition factor origin c)))))

/-- Ring closure as stated by the spec: the first and last coordinates agree (trivially
true for the empty list, where neither exists). -/
def ringClosed (l : List Position) : Prop :=
  l.head? = l.getLast?

/-- A concrete pixel-distance function used to instantiate the injected
`PixelDistanceBehavior.measure` in concrete scenarios: identity projection and taxicab
distance to the event's container position. -/
def taxicabMeasure (event : MouseEvent) (c : Position) : ℚ :=
  |c.1 - event.containerX| + |c.2 - event.containerY|

/-- The polygon ring of the spec's hit-test and drag-coordinate scenarios. -/
def ring0 : List Position := [(0, 0), (0, 10), (10, 10), (10, 0), (0, 0)]

/-- Rounding to a fixed precision is idempotent. -/
lemma limitPrecision_idem (q : ℚ) (p : ℕ) :
    limitPrecision (limitPrecision q p) p = limitPrecision q p := by
  unfold limitPrecision
  rw [div_mul_cancel₀ _ (by positivity : (10 : ℚ) ^ p ≠ 0), round_intCast]

/-- A successful `shiftCoordPrec` only ever produces precision-limited coordinates. -/
lemma shiftCoordPrec_rounded (prec : ℕ) (delta c c1 : Position)
    (h : shiftCoordPrec prec delta c = some c1) : Rounded prec c1 := by
  unfold shiftCoordPrec at h
  split at h
  · exact absurd h (by simp)
  · injection h with h1
    subst h1
    exact ⟨limitPrecision_idem _ _, limitPrecision_idem _ _⟩

/-- `shiftCoordPrec` fails exactly by the out-of-range test. -/
lemma shiftCoordPrec_eq_none (prec : ℕ) (delta c : Position)
    (h : outOfRange (c.1 - delta.1, c.2 - delta.2)) :
    shiftCoordPrec prec delta c = none := by
  have h1 : c.1 - delta.1 > 180 ∨ c.1 - delta.1 < -180 ∨ c.2 - delta.2 > 90 ∨
      c.2 - delta.2 < -90 := h
  unfold shiftCoordPrec
  rw [if_pos h1]

/-- `shiftCoordRaw` fails exactly by the out-of-range test. -/
lemma shiftCoordRaw_eq_none (delta c : Position)
    (h : outOfRange (c.1 - delta.1, c.2 - delta.2)) :
    shiftCoordRaw delta c = none := by
  have h1 : c.1 - delta.1 > 180 ∨ c.1 - delta.1 < -180 ∨ c.2 - delta.2 > 90 ∨
      c.2 - delta.2 < -90 := h
  unfold shiftCoordRaw
  rw [if_pos h1]

/-- A failure of `shiftFn` anywhere in the processed prefix makes the whole update loop
fail. -/
lemma shiftCoords_eq_none (shiftFn : Position → Option Position) :
    ∀ (cs : List Position) (n : ℕ), (∃ c ∈ cs.take n, shiftFn c = none) →
      shiftCoords shiftFn cs n = none := by
  intro cs
  induction cs with
  | nil =>
      rintro n ⟨c, hc, -⟩
      cases n <;> simp at hc
  | cons a rest ih =>
      rintro n ⟨c, hc, hcnone⟩
      cases n with
      | zero => simp at hc
      | succ n =>
          rw [List.take_succ_cons] at hc
          rcases List.mem_cons.mp hc with rfl | hmem
          · simp [shiftCoords, hcnone]
          · have hrest := ih n ⟨c, hmem, hcnone⟩
            cases ha : shiftFn a <;> simp [shiftCoords, ha, hrest]

/-- Index-wise description of a successful update loop: the first `n` coordinates are
the `shiftFn` images of the originals, the rest are untouched. -/
lemma shiftCoords_some (shiftFn : Position → Option Position) :
    ∀ (cs cs1 : List Position) (n : ℕ), shiftCoords shiftFn cs n = some cs1 →
      cs1.length = cs.length ∧
      ∀ i (h1 : i < cs1.length) (h2 : i < cs.length),
        (i < n → shiftFn (cs.get ⟨i, h2⟩) = some (cs1.get ⟨i, h1⟩)) ∧
        (n ≤ i → cs1.get ⟨i, h1⟩ = cs.get ⟨i, h2⟩) := by
  intro cs
  induction cs with
  | nil =>
      intro cs1 n h
      have hcs1 : cs1 = [] := by
        cases n <;> simpa [shiftCoords] using h.symm
      subst hcs1
      exact ⟨rfl, fun i h1 => absurd h1 (by simp)⟩
  | cons a rest ih =>
      intro cs1 n h
      cases n with
      | zero =>
          have hcs1 : cs1 = a :: rest := by simpa [shiftCoords] using h.symm
          subst hcs1
          exact ⟨rfl, fun i h1 h2 => ⟨fun hlt => absurd hlt (by omega), fun _ => rfl⟩⟩
      | succ n =>
          rw [shiftCoords, if_neg (Nat.succ_ne_zero n), Nat.add_sub_cancel] at h
          rcases ha : shiftFn a with - | c1 <;>
            rcases hrest : shiftCoords shiftFn rest n with - | rest1 <;>
              simp [ha, hrest] at h
          subst h
          obtain ⟨hlen, hidx⟩ := ih rest1 n hrest
          refine ⟨by simpa using hlen, ?_⟩
          intro i h1 h2
          cases i with
          | zero => exact ⟨fun _ => by simpa using ha, fun hle => absurd hle (by omega)⟩
          | succ i =>
              have h1' : i < rest1.length := by simpa using h1
              have h2' : i < rest.length := by simpa using h2
              obtain ⟨hA, hB⟩ := hidx i h1' h2'
              constructor
              · intro hlt
                simpa using hA (by omega)
              · intro hle
                simpa using hB (by omega)

/-- The ring-closure re-enforcement yields a closed ring unconditionally. -/
lemma ringClosed_closeRing (l : List Position) : ringClosed (closeRing l) := by
  unfold ringClosed closeRing
  cases l with
  | nil => rfl
  | cons a rest =>
      cases rest with
      | nil => rfl
      | cons b rest1 =>
          rw [List.head?_eq_getElem?, List.getLast?_eq_getElem?, List.length_set]
          have hlen : (a :: b :: rest1).length - 1 = rest1.length + 1 := by simp
          rw [hlen]
          rw [List.getElem?_set_ne (by omega), List.getElem?_set_self (by simp)]
          rfl

instance (c : Position) : Decidable (outOfRange c) :=
  inferInstanceAs (Decidable (c.1 > 180 ∨ c.1 < -180 ∨ c.2 > 90 ∨ c.2 < -90))

instance (l : List Position) : Decidable (ringClosed l) :=
  inferInstanceAs (Decidable (l.head? = l.getLast?))

instance (p : ℕ) (c : Position) : Decidable (Rounded p c) :=
  inferInstanceAs (Decidable (_ ∧ _))

/-- C7: a `ScaleFeatureBehavior.scale` call with `lastDistance` unset (or `0`, which the
falsy test `if (!this.lastDistance)` treats identically) stores the current
centroid-to-pointer distance as the baseline and commits nothing; a call on a Point
geometry leaves both the store and `lastDistance` unchanged. -/
theorem scaleStep_baseline_and_point (prec : ℕ) (distance : ℚ) :
    (∀ cs, scaleStep prec none distance (Geometry.lineString cs) =
      some (some distance, none)) ∧
    (∀ ring, scaleStep prec none distance (Geometry.polygon ring) =
      some (some distance, none)) ∧
    (∀ cs, scaleStep prec (some 0) distance (Geometry.lineString cs) =
      some (some distance, none)) ∧
    (∀ ring, scaleStep prec (some 0) distance (Geometry.polygon ring) =
      some (some distance, none)) ∧
    (∀ c lastDistance, scaleStep prec lastDistance distance (Geometry.point c) =
      some (lastDistance, none)) := by
  refine ⟨fun cs => ?_, fun ring => ?_, fun cs => ?_, fun ring => ?_, fun c lastD => ?_⟩ <;>
    simp [scaleStep]

/-- C8 (amended): whenever the baseline `lastDistance` is truthy (set and nonzero) and
the current centroid-to-pointer `distance` is nonzero, the scale factor
`1 − (lastDistance − distance) / distance` is well defined and `scale` completes on a
LineString or Polygon. The zero-distance degenerate case covered by the
first-tick-baseline rule is only the one where `lastDistance` itself is falsy; a zero
current distance on a later tick divides by zero (see the counterexample theorem). -/
theorem scaleStep_defined_of_distance_ne_zero (prec : ℕ) (lastD distance : ℚ)
    (h0 : lastD ≠ 0) (hd : distance ≠ 0) :
    (∀ cs, (scaleStep prec (some lastD) distance (Geometry.lineString cs)).isSome = true) ∧
    (∀ ring, (scaleStep prec (some lastD) distance (Geometry.polygon ring)).isSome = true) := by
  constructor <;> intro l <;> simp [scaleStep, h0, hd]

/-- Witness for the amended C8 theorem at a concrete second tick. -/
theorem scaleStep_defined_witness :
    (1 : ℚ) ≠ 0 ∧ (2 : ℚ) ≠ 0 ∧
    (scaleStep 6 (some 1) 2 (Geometry.lineString [(0, 0), (4, 0)])).isSome = true := by
  refine ⟨by norm_num, by norm_num, ?_⟩
  exact (scaleStep_defined_of_distance_ne_zero 6 1 2 (by norm_num) (by norm_num)).1
    [(0, 0), (4, 0)]

/-- C8 counterexample: the state `lastDistance = 1` is reachable (a baseline tick at
distance `1` produces it), and on the following tick with the pointer at the centroid
(`distance = 0`) the factor computation divides by zero — the embedding returns `none`,
the source computes a non-finite factor. The claim that the computation "cannot fail for
all real inputs" is therefore false. -/
theorem scaleStep_division_by_zero :
    scaleStep 6 none 1 (Geometry.lineString [(0, 0), (4, 0)]) = some (some 1, none) ∧
    scaleStep 6 (some 1) 0 (Geometry.lineString [(0, 0), (4, 0)]) = none := by
  refine ⟨by norm_num [scaleStep], ?_⟩
  norm_num [scaleStep, Option.some_ne_none]

/-- C9: in the first `part_002` variant the latitude-clamping pass is dead code — the
update loop re-declares `delta` from the unclamped anchor, shadowing the clamped value —
so `drag` returns exactly the result (same accept/reject decision, same committed
coordinates, same anchor update) of the variant with the clamping pass removed, on every
input. -/
theorem dragFeature002v1_clamp_pass_dead (dragPosition : Option Position)
    (event : MouseEvent) (geometry : Geometry) :
    dragFeature002v1 dragPosition event geometry =
      dragFeature002v1NoClamp dragPosition event geometry := by
  cases geometry <;> cases dragPosition <;> rfl

/-- C10 (amended): the `part_001` variant never rejects a translation — with an anchor
set, every LineString/Polygon drag commits a mutation. Longitude is not range-checked at
all (the call is commented out), so a committed longitude can lie outside `[-180, 180]`
(here `-190`). The latitude delta does pass through the clamping pass, but the claim that
every committed latitude lies within `[-85, 85]` is still false, because the clamp writes
`bound − position` instead of `position − bound` into the delta (see the counterexample
theorem). -/
theorem dragFeature001_never_rejects (p : Position) (event : MouseEvent) :
    (∀ cs, ((dragFeature001 (some p) event (Geometry.lineString cs)).2).isSome = true) ∧
    (∀ ring, ((dragFeature001 (some p) event (Geometry.polygon ring)).2).isSome = true) ∧
    (dragFeature001 (some (200, 0)) ⟨0, 0, 0, 0⟩ (Geometry.lineString [(10, 0)]) =
      (some (200, 0), some (Geometry.lineString [(-190, 0)]))) ∧
    ¬ ((-180 : ℚ) ≤ -190) := by
  refine ⟨fun cs => rfl, fun ring => rfl, ?_, by norm_num⟩
  norm_num [dragFeature001, clampLatitudeDelta, validateDeltaRange, applyDelta, closeRing]

/-- C10 counterexample: a committed latitude outside `[-85, 85]`. With anchor latitude
`80`, pointer latitude `-60` and stored latitude `50`, the clamp fires
(`50 − 140 = -90 < -85`) and replaces the delta by `-85 − 50 = -135`, so the committed
latitude is `50 − (-135) = 185`, far outside the claimed `[-85, 85]`. -/
theorem dragFeature001_commits_out_of_range_latitude :
    dragFeature001 (some (0, 80)) ⟨0, -60, 0, 0⟩ (Geometry.lineString [(0, 50)]) =
      (some (0, 80), some (Geometry.lineString [(0, 185)])) ∧
    ¬ ((185 : ℚ) ≤ 85) := by
  refine ⟨?_, by norm_num⟩
  norm_num [dragFeature001, clampLatitudeDelta, validateDeltaRange, applyDelta, closeRing]

/-- C1 (amended): in both `part_002` Feature-Drag variants, a drag tick on a LineString
or Polygon where some range-checked shifted coordinate would fall outside the valid
geographic range (longitude beyond ±180 or latitude beyond ±90, e.g. latitude 95) is
rejected whole: nothing is committed (no coordinates, no handles, no Change Record) and
the anchor keeps its previous value. For a Polygon the range check covers the ring
without its duplicated closing coordinate. The `part_001` variant, by contrast, clamps
the latitude delta and commits (see the counterexample theorem). -/
theorem dragFeature002_rejects_out_of_range (prec : ℕ) (p : Position) (event : MouseEvent) :
    (∀ cs, (∃ c ∈ cs, outOfRange (shiftedPosition p event c)) →
      dragFeature002v2 prec (some p) event (Geometry.lineString cs) = (some p, none)) ∧
    (∀ ring, (∃ c ∈ ring.take (ring.length - 1), outOfRange (shiftedPosition p event c)) →
      dragFeature002v2 prec (some p) event (Geometry.polygon ring) = (some p, none)) ∧
    (∀ cs, (∃ c ∈ cs, outOfRange (shiftedPosition p event c)) →
      dragFeature002v1 (some p) event (Geometry.lineString cs) = (some p, none)) ∧
    (∀ ring, (∃ c ∈ ring.take (ring.length - 1), outOfRange (shiftedPosition p event c)) →
      dragFeature002v1 (some p) event (Geometry.polygon ring) = (some p, none)) := by
  have keyPrec : ∀ (cs : List Position) (n : ℕ),
      (∃ c ∈ cs.take n, outOfRange (shiftedPosition p event c)) →
      shiftCoords (shiftCoordPrec prec (p.1 - event.lng, p.2 - event.lat)) cs n = none := by
    rintro cs n ⟨c, hc, hcr⟩
    exact shiftCoords_eq_none _ cs n ⟨c, hc, shiftCoordPrec_eq_none prec _ c hcr⟩
  have keyRaw : ∀ (cs : List Position) (n : ℕ),
      (∃ c ∈ cs.take n, outOfRange (shiftedPosition p event c)) →
      shiftCoords (shiftCoordRaw (p.1 - event.lng, p.2 - event.lat)) cs n = none := by
    rintro cs n ⟨c, hc, hcr⟩
    exact shiftCoords_eq_none _ cs n ⟨c, hc, shiftCoordRaw_eq_none _ c hcr⟩
  refine ⟨fun cs hex => ?_, fun ring hex => ?_, fun cs hex => ?_, fun ring hex => ?_⟩
  · have hnone := keyPrec cs cs.length (by simpa [List.take_length] using hex)
    simp [dragFeature002v2, hnone]
  · have hnone := keyPrec ring (ring.length - 1) hex
    simp [dragFeature002v2, hnone]
  · have hnone := keyRaw cs cs.length (by simpa [List.take_length] using hex)
    simp [dragFeature002v1, hnone]
  · have hnone := keyRaw ring (ring.length - 1) hex
    simp [dragFeature002v1, hnone]

/-- Witness for the amended C1 theorem: an attempted move of latitude 80 to latitude 95
is rejected whole by both `part_002` variants. -/
theorem dragFeature002_rejects_witness :
    (∃ c ∈ [((0 : ℚ), (80 : ℚ))], outOfRange (shiftedPosition (0, 0) ⟨0, 15, 0, 0⟩ c)) ∧
    dragFeature002v2 6 (some (0, 0)) ⟨0, 15, 0, 0⟩ (Geometry.lineString [(0, 80)]) =
      (some (0, 0), none) ∧
    dragFeature002v1 (some (0, 0)) ⟨0, 15, 0, 0⟩ (Geometry.lineString [(0, 80)]) =
      (some (0, 0), none) := by
  have hex : ∃ c ∈ [((0 : ℚ), (80 : ℚ))],
      outOfRange (shiftedPosition (0, 0) ⟨0, 15, 0, 0⟩ c) := by
    refine ⟨(0, 80), by simp, ?_⟩
    norm_num [shiftedPosition, outOfRange]
  exact ⟨hex, (dragFeature002_rejects_out_of_range 6 (0, 0) ⟨0, 15, 0, 0⟩).1 _ hex,
    (dragFeature002_rejects_out_of_range 6 (0, 0) ⟨0, 15, 0, 0⟩).2.2.1 _ hex⟩

/-- C1 counterexample: the `part_001` Feature-Drag variant, also cited by the claim, does
NOT reject this tick. The same attempted move of latitude 80 to latitude 95 (out of
range) makes it clamp the delta (to `85 − 80 = 5`) and commit a mutated feature (latitude
`75`): the store is mutated and a Change Record is emitted, contradicting the claim. -/
theorem dragFeature001_commits_despite_out_of_range :
    outOfRange (shiftedPosition (0, 0) ⟨0, 15, 0, 0⟩ (0, 80)) ∧
    dragFeature001 (some (0, 0)) ⟨0, 15, 0, 0⟩ (Geometry.lineString [(0, 80)]) =
      (some (0, 0), some (Geometry.lineString [(0, 75)])) := by
  constructor
  · norm_num [shiftedPosition, outOfRange]
  · norm_num [dragFeature001, clampLatitudeDelta, validateDeltaRange, applyDelta]

/-- C6 (amended): in both `part_002` Feature-Drag variants, every LineString/Polygon
drag tick that commits advances the stored anchor (`this.dragPosition`) to the current
pointer position, so the next tick's delta is relative to this tick. The `part_001`
variant commits without ever advancing the anchor (see the counterexample theorem). -/
theorem dragFeature002_advances_anchor (prec : ℕ) (dragPosition : Option Position)
    (event : MouseEvent) :
    (∀ cs, ∀ g ∈ (dragFeature002v2 prec dragPosition event (Geometry.lineString cs)).2,
      (dragFeature002v2 prec dragPosition event (Geometry.lineString cs)).1 =
        some (event.lng, event.lat)) ∧
    (∀ ring, ∀ g ∈ (dragFeature002v2 prec dragPosition event (Geometry.polygon ring)).2,
      (dragFeature002v2 prec dragPosition event (Geometry.polygon ring)).1 =
        some (event.lng, event.lat)) ∧
    (∀ cs, ∀ g ∈ (dragFeature002v1 dragPosition event (Geometry.lineString cs)).2,
      (dragFeature002v1 dragPosition event (Geometry.lineString cs)).1 =
        some (event.lng, event.lat)) ∧
    (∀ ring, ∀ g ∈ (dragFeature002v1 dragPosition event (Geometry.polygon ring)).2,
      (dragFeature002v1 dragPosition event (Geometry.polygon ring)).1 =
        some (event.lng, event.lat)) := by
  rcases dragPosition with - | p
  · refine ⟨fun cs g hg => ?_, fun ring g hg => ?_, fun cs g hg => ?_, fun ring g hg => ?_⟩ <;>
      simp [dragFeature002v2, dragFeature002v1] at hg
  · refine ⟨fun cs g hg => ?_, fun ring g hg => ?_, fun cs g hg => ?_, fun ring g hg => ?_⟩
    · rcases hsc : shiftCoords (shiftCoordPrec prec (p.1 - event.lng, p.2 - event.lat))
          cs cs.length with - | cs1 <;>
        simp [dragFeature002v2, hsc] at hg ⊢
    · rcases hsc : shiftCoords (shiftCoordPrec prec (p.1 - event.lng, p.2 - event.lat))
          ring (ring.length - 1) with - | ring1 <;>
        simp [dragFeature002v2, hsc] at hg ⊢
    · rcases hsc : shiftCoords (shiftCoordRaw (p.1 - event.lng, p.2 - event.lat))
          cs cs.length with - | cs1 <;>
        simp [dragFeature002v1, hsc] at hg ⊢
    · rcases hsc : shiftCoords (shiftCoordRaw (p.1 - event.lng, p.2 - event.lat))
          ring (ring.length - 1) with - | ring1 <;>
        simp [dragFeature002v1, hsc] at hg ⊢

/-- Witness for the amended C6 theorem at a concrete successful tick. -/
theorem dragFeature002_advances_anchor_witness :
    Geometry.lineString [((1 : ℚ), (1 : ℚ))] ∈
      (dragFeature002v2 6 (some (0, 0)) ⟨1, 1, 1, 1⟩ (Geometry.lineString [(0, 0)])).2 ∧
    (dragFeature002v2 6 (some (0, 0)) ⟨1, 1, 1, 1⟩ (Geometry.lineString [(0, 0)])).1 =
      some (1, 1) := by
  have hmem : Geometry.lineString [((1 : ℚ), (1 : ℚ))] ∈
      (dragFeature002v2 6 (some (0, 0)) ⟨1, 1, 1, 1⟩ (Geometry.lineString [(0, 0)])).2 := by
    rw [Option.mem_def]
    norm_num [dragFeature002v2, shiftCoords, shiftCoordPrec, limitPrecision, round_eq]
  exact ⟨hmem,
    (dragFeature002_advances_anchor 6 (some (0, 0)) ⟨1, 1, 1, 1⟩).1 [(0, 0)] _ hmem⟩

/-- C6 counterexample: a `part_001` drag tick that commits a shift (anchor `(1,2)`,
pointer `(3,4)`, the single coordinate moves from `(0,0)` to `(2,2)`) while the stored
anchor stays `(1,2)` instead of advancing to the pointer position `(3,4)`. -/
theorem dragFeature001_keeps_anchor :
    dragFeature001 (some (1, 2)) ⟨3, 4, 3, 4⟩ (Geometry.lineString [(0, 0)]) =
      (some (1, 2), some (Geometry.lineString [(2, 2)])) ∧
    some ((1 : ℚ), (2 : ℚ)) ≠ some ((3 : ℚ), (4 : ℚ)) := by
  constructor
  · norm_num [dragFeature001, clampLatitudeDelta, validateDeltaRange, applyDelta]
  · simp

/-- C4: `DragCoordinateBehavior.drag` relocates the coordinate at `index` to
`[event.lng, event.lat]`; when `index` is the first or last index of a Polygon ring both
ring ends receive that value; all other coordinates are unchanged; the call commits and
returns `true` for LineStrings and Polygons, and returns `false` immediately (committing
nothing) for Points. -/
theorem dragCoordinate_spec (event : MouseEvent) (index : ℕ) :
    (∀ c, dragCoordinate event (Geometry.point c) index = none) ∧
    (∀ cs, index < cs.length →
      ∃ cs1, dragCoordinate event (Geometry.lineString cs) index =
          some (Geometry.lineString cs1) ∧
        cs1.length = cs.length ∧
        cs1[index]? = some (event.lng, event.lat) ∧
        ∀ j, j ≠ index → cs1[j]? = cs[j]?) ∧
    (∀ ring, index < ring.length → (index = 0 ∨ index = ring.length - 1) →
      ∃ ring1, dragCoordinate event (Geometry.polygon ring) index =
          some (Geometry.polygon ring1) ∧
        ring1.length = ring.length ∧
        ring1[0]? = some (event.lng, event.lat) ∧
        ring1[ring.length - 1]? = some (event.lng, event.lat) ∧
        ∀ j, j ≠ 0 → j ≠ ring.length - 1 → ring1[j]? = ring[j]?) ∧
    (∀ ring, index < ring.length → ¬ (index = 0 ∨ index = ring.length - 1) →
      ∃ ring1, dragCoordinate event (Geometry.polygon ring) index =
          some (Geometry.polygon ring1) ∧
        ring1.length = ring.length ∧
        ring1[index]? = some (event.lng, event.lat) ∧
        ∀ j, j ≠ index → ring1[j]? = ring[j]?) := by
  refine ⟨fun c => rfl, fun cs hidx => ?_, fun ring hidx hfl => ?_, fun ring hidx hfl => ?_⟩
  · refine ⟨cs.set index (event.lng, event.lat), rfl, cs.length_set index _, ?_, ?_⟩
    · exact List.getElem?_set_self hidx
    · exact fun j hj => List.getElem?_set_ne (Ne.symm hj)
  · have hcond : index = ring.length - 1 ∨ index = 0 := hfl.symm
    refine ⟨(ring.set 0 (event.lng, event.lat)).set (ring.length - 1) (event.lng, event.lat),
      ?_, ?_, ?_, ?_, ?_⟩
    · simp only [dragCoordinate, if_pos hcond]
    · simp
    · by_cases h0 : ring.length - 1 = 0
      · rw [h0]
        exact List.getElem?_set_self (by simp; omega)
      · rw [List.getElem?_set_ne h0]
        exact List.getElem?_set_self (by omega)
    · exact List.getElem?_set_self (by simp; omega)
    · intro j hj0 hjl
      rw [List.getElem?_set_ne (Ne.symm hjl), List.getElem?_set_ne (Ne.symm hj0)]
  · have hcond : ¬ (index = ring.length - 1 ∨ index = 0) := fun h => hfl h.symm
    refine ⟨ring.set index (event.lng, event.lat), ?_, by simp, ?_, ?_⟩
    · simp only [dragCoordinate, if_neg hcond]
    · exact List.getElem?_set_self hidx
    · exact fun j hj => List.getElem?_set_ne (Ne.symm hj)

/-- Witness for the C4 theorem: the spec's drag-coordinate scenario — on the ring
`[[0,0],[0,10],[10,10],[10,0],[0,0]]`, `drag` at index 0 with event `{lng:5, lat:5}`
writes `(5,5)` to both index 0 and index 4 and leaves the middle coordinates unchanged. -/
theorem dragCoordinate_spec_witness :
    ((0 : ℕ) < ring0.length ∧ ((0 : ℕ) = 0 ∨ (0 : ℕ) = ring0.length - 1)) ∧
    ∃ ring1, dragCoordinate ⟨5, 5, 5, 5⟩ (Geometry.polygon ring0) 0 =
        some (Geometry.polygon ring1) ∧
      ring1.length = ring0.length ∧
      ring1[0]? = some (5, 5) ∧
      ring1[ring0.length - 1]? = some (5, 5) ∧
      ∀ j, j ≠ 0 → j ≠ ring0.length - 1 → ring1[j]? = ring0[j]? := by
  refine ⟨⟨by norm_num [ring0], Or.inl rfl⟩, ?_⟩
  exact (dragCoordinate_spec ⟨5, 5, 5, 5⟩ 0).2.2.1 ring0 (by norm_num [ring0]) (Or.inl rfl)

/-- C5: every Polygon mutation of Coordinate-Drag, Feature-Drag (`part_002` precision
variant) or Feature-Scale leaves the committed ring closed: its first and last
coordinates agree. Coordinate-Drag and Feature-Scale preserve a closed input ring
(Coordinate-Drag writes both ends when either end is dragged, Feature-Scale transforms
the duplicated closing coordinate identically); Feature-Drag re-enforces closure
unconditionally by copying the first shifted coordinate into the last slot. -/
theorem polygon_mutations_preserve_closure (prec : ℕ) (event : MouseEvent) :
    (∀ ring index, index < ring.length → ringClosed ring →
      ∃ ring1, dragCoordinate event (Geometry.polygon ring) index =
          some (Geometry.polygon ring1) ∧ ringClosed ring1) ∧
    (∀ p ring, ∀ g ∈ (dragFeature002v2 prec (some p) event (Geometry.polygon ring)).2,
      ∃ ring1, g = Geometry.polygon ring1 ∧ ringClosed ring1) ∧
    (∀ lastD distance ring, ringClosed ring →
      ∀ out ∈ scaleStep prec lastD distance (Geometry.polygon ring), ∀ g ∈ out.2,
        ∃ ring1, g = Geometry.polygon ring1 ∧ ringClosed ring1) := by
  refine ⟨fun ring index hidx hcl => ?_, fun p ring g hg => ?_,
    fun lastD distance ring hcl out hout g hg => ?_⟩
  · by_cases hcond : index = ring.length - 1 ∨ index = 0
    · refine ⟨(ring.set 0 (event.lng, event.lat)).set (ring.length - 1) (event.lng, event.lat),
        by simp only [dragCoordinate, if_pos hcond], ?_⟩
      unfold ringClosed
      rw [List.head?_eq_getElem?, List.getLast?_eq_getElem?]
      simp only [List.length_set]
      have hlast : ((ring.set 0 (event.lng, event.lat)).set (ring.length - 1)
          (event.lng, event.lat))[ring.length - 1]? = some (event.lng, event.lat) :=
        List.getElem?_set_self (by simp; omega)
      by_cases h0 : ring.length - 1 = 0
      · rw [h0]
      · rw [List.getElem?_set_ne h0, List.getElem?_set_self (by omega), hlast]
    · refine ⟨ring.set index (event.lng, event.lat),
        by simp only [dragCoordinate, if_neg hcond], ?_⟩
      push_neg at hcond
      unfold ringClosed at hcl ⊢
      rw [List.head?_eq_getElem?, List.getLast?_eq_getElem?] at hcl ⊢
      simp only [List.length_set]
      rw [List.getElem?_set_ne hcond.2, List.getElem?_set_ne hcond.1]
      exact hcl
  · rcases hsc : shiftCoords (shiftCoordPrec prec (p.1 - event.lng, p.2 - event.lat))
        ring (ring.length - 1) with - | ring2
    · simp [dragFeature002v2, hsc] at hg
    · have hgeq : Geometry.polygon (closeRing ring2) = g := by
        simpa [dragFeature002v2, hsc, Option.mem_def] using hg
      exact ⟨closeRing ring2, hgeq.symm, ringClosed_closeRing ring2⟩
  · by_cases hfalsy : lastD = none ∨ lastD = some 0
    · have hout2 : ((some distance, none) : Option ℚ × Option Geometry) = out := by
        simpa [scaleStep, hfalsy, Option.mem_def] using hout
      subst hout2
      simp at hg
    · by_cases hd : distance = 0
      · simp [scaleStep, hfalsy, hd] at hout
      · have hout2 : ((some distance, some (Geometry.polygon (ring.map (fun c =>
            roundPosition prec (transformScalePosition
              (1 - (lastD.getD 0 - distance) / distance) (centroidOfCoords ring) c))))) :
              Option ℚ × Option Geometry) = out := by
          simpa [scaleStep, hfalsy, hd, Option.mem_def] using hout
        subst hout2
        have hgeq : Geometry.polygon (ring.map (fun c =>
            roundPosition prec (transformScalePosition
              (1 - (lastD.getD 0 - distance) / distance) (centroidOfCoords ring) c))) = g := by
          simpa [Option.mem_def] using hg
        refine ⟨_, hgeq.symm, ?_⟩
        unfold ringClosed at hcl ⊢
        rw [List.head?_map, List.getLast?_map, hcl]

/-- Witness for the C5 theorem: all three mutations at concrete inputs on the spec's
ring, with every hypothesis (index in range, closed input ring, concrete committed
geometries) discharged. -/
theorem polygon_closure_witness :
    ((1 : ℕ) < ring0.length ∧ ringClosed ring0) ∧
    (∃ r1, dragCoordinate ⟨1, 1, 1, 1⟩ (Geometry.polygon ring0) 1 =
        some (Geometry.polygon r1) ∧ ringClosed r1) ∧
    (∃ r2, Geometry.polygon [((1 : ℚ), (1 : ℚ)), (1, 11), (11, 11), (11, 1), (1, 1)] =
        Geometry.polygon r2 ∧ ringClosed r2) ∧
    (∃ r3, Geometry.polygon [((-2 : ℚ), (-2 : ℚ)), (-2, 13), (13, 13), (13, -2), (-2, -2)] =
        Geometry.polygon r3 ∧ ringClosed r3) := by
  have h := polygon_mutations_preserve_closure 6 ⟨1, 1, 1, 1⟩
  have h1 : (1 : ℕ) < ring0.length := by norm_num [ring0]
  have hcl : ringClosed ring0 := by norm_num [ringClosed, ring0]
  refine ⟨⟨h1, hcl⟩, h.1 ring0 1 h1 hcl, ?_, ?_⟩
  · refine h.2.1 (0, 0) ring0 _ ?_
    rw [Option.mem_def]
    norm_num [dragFeature002v2, shiftCoords, shiftCoordPrec, limitPrecision, round_eq,
      closeRing, ring0]
  · refine h.2.2 (some 1) 2 ring0 hcl
      ((some 2, some (Geometry.polygon
        [((-2 : ℚ), (-2 : ℚ)), (-2, 13), (13, 13), (13, -2), (-2, -2)]))) ?_ _ ?_
    · rw [Option.mem_def]
      norm_num [scaleStep, centroidOfCoords, transformScalePosition, roundPosition,
        limitPrecision, round_eq, ring0, Option.some_ne_none]
    · rw [Option.mem_def]

/-- The precision pass of the scale behavior only produces rounded coordinates. -/
lemma roundPosition_rounded (prec : ℕ) (c : Position) :
    Rounded prec (roundPosition prec c) :=
  ⟨limitPrecision_idem _ _, limitPrecision_idem _ _⟩

/-- C2 (amended): the mutations that do limit precision — Feature-Scale and the second
(precision) `part_002` Feature-Drag variant — commit only coordinates rounded to the
configured decimal precision on LineStrings and Polygons, and with precision 6 a
computed coordinate `12.1234567` is stored and read back as `12.123457`. (Coordinate-Drag
and the other Feature-Drag variants commit unrounded coordinates — see the
counterexample theorem.) -/
theorem committed_coordinates_rounded (prec : ℕ) (event : MouseEvent) :
    (∀ p cs, ∀ g ∈ (dragFeature002v2 prec (some p) event (Geometry.lineString cs)).2,
      ∃ cs1, g = Geometry.lineString cs1 ∧ ∀ c ∈ cs1, Rounded prec c) ∧
    (∀ p ring, 2 ≤ ring.length →
      ∀ g ∈ (dragFeature002v2 prec (some p) event (Geometry.polygon ring)).2,
      ∃ ring1, g = Geometry.polygon ring1 ∧ ∀ c ∈ ring1, Rounded prec c) ∧
    (∀ lastD distance cs, ∀ out ∈ scaleStep prec lastD distance (Geometry.lineString cs),
      ∀ g ∈ out.2, ∃ cs1, g = Geometry.lineString cs1 ∧ ∀ c ∈ cs1, Rounded prec c) ∧
    (∀ lastD distance ring, ∀ out ∈ scaleStep prec lastD distance (Geometry.polygon ring),
      ∀ g ∈ out.2, ∃ ring1, g = Geometry.polygon ring1 ∧ ∀ c ∈ ring1, Rounded prec c) ∧
    limitPrecision (12.1234567 : ℚ) 6 = (12.123457 : ℚ) ∧
    (dragFeature002v2 6 (some (5, 5)) ⟨5, 5, 0, 0⟩
        (Geometry.lineString [(12.1234567, 0)])).2 =
      some (Geometry.lineString [(12.123457, 0)]) := by
  refine ⟨fun p cs g hg => ?_, fun p ring hlen2 g hg => ?_,
    fun lastD distance cs out hout g hg => ?_,
    fun lastD distance ring out hout g hg => ?_, ?_, ?_⟩
  · rcases hsc : shiftCoords (shiftCoordPrec prec (p.1 - event.lng, p.2 - event.lat))
        cs cs.length with - | cs1
    · simp [dragFeature002v2, hsc] at hg
    · have hgeq : Geometry.lineString cs1 = g := by
        simpa [dragFeature002v2, hsc, Option.mem_def] using hg
      refine ⟨cs1, hgeq.symm, ?_⟩
      intro c hc
      obtain ⟨i, hi, hci⟩ := List.mem_iff_getElem.mp hc
      obtain ⟨hlen, hidx⟩ := shiftCoords_some _ cs cs1 cs.length hsc
      have hi2 : i < cs.length := hlen ▸ hi
      have hsh := (hidx i hi hi2).1 hi2
      have hr : Rounded prec (cs1.get ⟨i, hi⟩) := shiftCoordPrec_rounded _ _ _ _ hsh
      rw [List.get_eq_getElem, hci] at hr
      exact hr
  · rcases hsc : shiftCoords (shiftCoordPrec prec (p.1 - event.lng, p.2 - event.lat))
        ring (ring.length - 1) with - | ring2
    · simp [dragFeature002v2, hsc] at hg
    · have hgeq : Geometry.polygon (closeRing ring2) = g := by
        simpa [dragFeature002v2, hsc, Option.mem_def] using hg
      refine ⟨closeRing ring2, hgeq.symm, ?_⟩
      intro c hc
      obtain ⟨hlen, hidx⟩ := shiftCoords_some _ ring ring2 (ring.length - 1) hsc
      obtain ⟨i, hi, hci⟩ := List.mem_iff_getElem.mp hc
      have hci2 : (closeRing ring2)[i]? = some c := by
        rw [List.getElem?_eq_getElem hi, hci]
      have hi' : i < ring2.length := by simpa [closeRing] using hi
      have h0 : 0 < ring2.length := by omega
      by_cases hilast : i = ring2.length - 1
      · have hq : (closeRing ring2)[i]? = some ring2.headI := by
          unfold closeRing
          subst hilast
          exact List.getElem?_set_self hi'
        rw [hci2] at hq
        have hceq : c = ring2.headI := Option.some_inj.mp hq
        have hheadI : ring2.headI = ring2.get ⟨0, h0⟩ := by
          rcases ring2 with - | ⟨a, t⟩
          · simp at h0
          · rfl
        have hr := (hidx 0 h0 (by omega)).1 (by omega)
        have hrd : Rounded prec (ring2.get ⟨0, h0⟩) := shiftCoordPrec_rounded _ _ _ _ hr
        rw [hceq, hheadI]
        exact hrd
      · have hne : ring2.length - 1 ≠ i := fun h => hilast h.symm
        have hq : (closeRing ring2)[i]? = ring2[i]? := by
          unfold closeRing
          exact List.getElem?_set_ne hne
        rw [hci2, List.getElem?_eq_getElem hi'] at hq
        have hceq : c = ring2[i] := Option.some_inj.mp hq
        have hiub : i < ring.length - 1 := by omega
        have hr := (hidx i hi' (by omega)).1 hiub
        have hrd : Rounded prec (ring2.get ⟨i, hi'⟩) := shiftCoordPrec_rounded _ _ _ _ hr
        rw [List.get_eq_getElem] at hrd
        rw [hceq]
        exact hrd
  · by_cases hfalsy : lastD = none ∨ lastD = some 0
    · have hout2 : ((some distance, none) : Option ℚ × Option Geometry) = out := by
        simpa [scaleStep, hfalsy, Option.mem_def] using hout
      subst hout2
      simp at hg
    · by_cases hd : distance = 0
      · simp [scaleStep, hfalsy, hd] at hout
      · have hout2 : ((some distance, some (Geometry.lineString (cs.map (fun c =>
            roundPosition prec (transformScalePosition
              (1 - (lastD.getD 0 - distance) / distance) (centroidOfCoords cs) c))))) :
              Option ℚ × Option Geometry) = out := by
          simpa [scaleStep, hfalsy, hd, Option.mem_def] using hout
        subst hout2
        have hgeq : Geometry.lineString (cs.map (fun c =>
            roundPosition prec (transformScalePosition
              (1 - (lastD.getD 0 - distance) / distance) (centroidOfCoords cs) c))) = g := by
          simpa [Option.mem_def] using hg
        refine ⟨_, hgeq.symm, ?_⟩
        intro c hc
        obtain ⟨x, -, hx⟩ := List.mem_map.mp hc
        rw [← hx]
        exact roundPosition_rounded prec _
  · by_cases hfalsy : lastD = none ∨ lastD = some 0
    · have hout2 : ((some distance, none) : Option ℚ × Option Geometry) = out := by
        simpa [scaleStep, hfalsy, Option.mem_def] using hout
      subst hout2
      simp at hg
    · by_cases hd : distance = 0
      · simp [scaleStep, hfalsy, hd] at hout
      · have hout2 : ((some distance, some (Geometry.polygon (ring.map (fun c =>
            roundPosition prec (transformScalePosition
              (1 - (lastD.getD 0 - distance) / distance) (centroidOfCoords ring) c))))) :
              Option ℚ × Option Geometry) = out := by
          simpa [scaleStep, hfalsy, hd, Option.mem_def] using hout
        subst hout2
        have hgeq : Geometry.polygon (ring.map (fun c =>
            roundPosition prec (transformScalePosition
              (1 - (lastD.getD 0 - distance) / distance) (centroidOfCoords ring) c))) = g := by
          simpa [Option.mem_def] using hg
        refine ⟨_, hgeq.symm, ?_⟩
        intro c hc
        obtain ⟨x, -, hx⟩ := List.mem_map.mp hc
        rw [← hx]
        exact roundPosition_rounded prec _
  · norm_num [limitPrecision, round_eq]
  · norm_num [dragFeature002v2, shiftCoords, shiftCoordPrec, limitPrecision, round_eq]

/-- Witness for the amended C2 theorem at a concrete successful Feature-Drag tick. -/
theorem committed_coordinates_rounded_witness :
    Geometry.lineString [((1 : ℚ), (1 : ℚ))] ∈
      (dragFeature002v2 6 (some (0, 0)) ⟨1, 1, 1, 1⟩ (Geometry.lineString [(0, 0)])).2 ∧
    ∃ cs1, Geometry.lineString [((1 : ℚ), (1 : ℚ))] = Geometry.lineString cs1 ∧
      ∀ c ∈ cs1, Rounded 6 c := by
  have hmem : Geometry.lineString [((1 : ℚ), (1 : ℚ))] ∈
      (dragFeature002v2 6 (some (0, 0)) ⟨1, 1, 1, 1⟩ (Geometry.lineString [(0, 0)])).2 := by
    rw [Option.mem_def]
    norm_num [dragFeature002v2, shiftCoords, shiftCoordPrec, limitPrecision, round_eq]
  exact ⟨hmem, (committed_coordinates_rounded 6 ⟨1, 1, 1, 1⟩).1 (0, 0) [(0, 0)] _ hmem⟩

/-- C2 counterexample: Coordinate-Drag commits the raw event coordinates without any
precision limiting. With precision 6 and event longitude `12.1234567`, the stored and
read-back value is `12.1234567`, not the claimed `12.123457`. -/
theorem dragCoordinate_commits_unrounded :
    dragCoordinate ⟨12.1234567, 0, 0, 0⟩ (Geometry.lineString [(0, 0)]) 0 =
      some (Geometry.lineString [(12.1234567, 0)]) ∧
    ¬ Rounded 6 ((12.1234567 : ℚ), (0 : ℚ)) := by
  constructor
  · norm_num [dragCoordinate]
  · intro h
    have h1 := h.1
    norm_num [limitPrecision, round_eq] at h1

/-- One step of the scan loop preserves the invariant: processing coordinate `c` at
index `done.length` either updates the best candidate (when `c` qualifies and strictly
improves) or keeps it. -/
lemma closestInv_step (measure : MouseEvent → Position → ℚ) (tol : ℚ) (event : MouseEvent)
    (isPoly : Bool) (lastIndex : ℕ) (done : List Position) (best : Option (ℚ × ℤ))
    (c : Position) (h : ClosestInv measure tol event isPoly lastIndex done best) :
    ClosestInv measure tol event isPoly lastIndex (done ++ [c])
      (if measure event c < tol ∧ improves (measure event c) best = true then
        some (measure event c, normIdx isPoly lastIndex done.length)
      else best) := by
  have hlen : (done ++ [c]).length = done.length + 1 := by simp
  rcases best with - | ⟨d, idx⟩
  · simp only [ClosestInv] at h
    by_cases hctol : measure event c < tol
    · rw [if_pos ⟨hctol, rfl⟩]
      simp only [ClosestInv]
      refine ⟨done.length, by omega,
        (congrArg (measure event) (List.getElem_concat_length done c _ rfl _)).symm,
        rfl, ?_, ?_, ?_⟩
      · rw [List.getElem_concat_length done c _ rfl]
        exact hctol
      · intro k hk
        rw [List.getElem_concat_length done c _ rfl]
        by_cases hkd : k < done.length
        · rw [List.getElem_append_left hkd]
          exact le_of_lt (lt_of_lt_of_le hctol (le_of_not_lt (h _ (List.getElem_mem hkd))))
        · have hk2 : k = done.length := by omega
          rw [List.getElem_concat_length done c k hk2]
      · intro k hk hkm
        rw [List.getElem_concat_length done c _ rfl, List.getElem_append_left hkm]
        exact lt_of_lt_of_le hctol (le_of_not_lt (h _ (List.getElem_mem hkm)))
    · rw [if_neg (fun hc => hctol hc.1)]
      simp only [ClosestInv]
      intro x hx
      rcases List.mem_append.mp hx with hx | hx
      · exact h x hx
      · rw [List.mem_singleton] at hx
        subst hx
        exact hctol
  · simp only [ClosestInv] at h
    obtain ⟨m, hm, hd, hidx, htol, hmin, hstrict⟩ := h
    by_cases hcond : measure event c < tol ∧ measure event c < d
    · have himp : improves (measure event c) (some (d, idx)) = true := by
        simp [improves, hcond.2]
      rw [if_pos ⟨hcond.1, himp⟩]
      simp only [ClosestInv]
      refine ⟨done.length, by omega,
        (congrArg (measure event) (List.getElem_concat_length done c _ rfl _)).symm,
        rfl, ?_, ?_, ?_⟩
      · rw [List.getElem_concat_length done c _ rfl]
        exact hcond.1
      · intro k hk
        rw [List.getElem_concat_length done c _ rfl]
        by_cases hkd : k < done.length
        · rw [List.getElem_append_left hkd]
          have h1 : measure event c < measure event done[m] := hd ▸ hcond.2
          exact le_of_lt (lt_of_lt_of_le h1 (hmin k hkd))
        · have hk2 : k = done.length := by omega
          rw [List.getElem_concat_length done c k hk2]
      · intro k hk hkm
        rw [List.getElem_concat_length done c _ rfl, List.getElem_append_left hkm]
        have h1 : measure event c < measure event done[m] := hd ▸ hcond.2
        exact lt_of_lt_of_le h1 (hmin k hkm)
    · have himp : ¬ (measure event c < tol ∧
          improves (measure event c) (some (d, idx)) = true) := by
        intro hc
        exact hcond ⟨hc.1, by simpa [improves] using hc.2⟩
      rw [if_neg himp]
      simp only [ClosestInv]
      refine ⟨m, by omega, ?_, hidx, ?_, ?_, ?_⟩
      · rw [List.getElem_append_left hm]
        exact hd
      · rw [List.getElem_append_left hm]
        exact htol
      · intro k hk
        rw [List.getElem_append_left hm]
        by_cases hkd : k < done.length
        · rw [List.getElem_append_left hkd]
          exact hmin k hkd
        · have hk2 : k = done.length := by omega
          rw [List.getElem_concat_length done c k hk2]
          by_cases hctol : measure event c < tol
          · have hcd : d ≤ measure event c := le_of_not_lt fun hlt => hcond ⟨hctol, hlt⟩
            exact hd ▸ hcd
          · exact le_of_lt (lt_of_lt_of_le htol (le_of_not_lt hctol))
      · intro k hk hkm
        rw [List.getElem_append_left hm, List.getElem_append_left (by omega : k < done.length)]
        exact hstrict k (by omega) hkm

/-- Running the scan loop over `rest`, starting at index `done.length` with a best
candidate satisfying the invariant for `done`, yields a result satisfying the invariant
for `done ++ rest`. -/
lemma closestLoop_inv (measure : MouseEvent → Position → ℚ) (tol : ℚ) (event : MouseEvent)
    (isPoly : Bool) (lastIndex : ℕ) :
    ∀ (rest done : List Position) (best : Option (ℚ × ℤ)),
      ClosestInv measure tol event isPoly lastIndex done best →
      ClosestInv measure tol event isPoly lastIndex (done ++ rest)
        (closestLoop measure tol event isPoly lastIndex rest done.length best) := by
  intro rest
  induction rest with
  | nil =>
      intro done best h
      simpa [closestLoop] using h
  | cons c rest ih =>
      intro done best h
      simp only [closestLoop]
      have hstep := closestInv_step measure tol event isPoly lastIndex done best c h
      have hrec := ih (done ++ [c]) _ hstep
      rw [List.length_append, List.length_singleton] at hrec
      rw [List.append_assoc, List.singleton_append] at hrec
      exact hrec

/-- C3: `isCoordinateNearEvent` returns `-1` for Point geometries; for a LineString or
Polygon it returns `-1` exactly when no coordinate's pixel distance is strictly below
the tolerance, and otherwise the index of the closest qualifying coordinate with the
first index winning distance ties (scan order), normalized to `0` when the winner is the
first or last coordinate of a Polygon ring. `measure` is the injected pixel-distance
collaborator. -/
theorem isCoordinateNearEvent_spec (measure : MouseEvent → Position → ℚ) (tol : ℚ)
    (event : MouseEvent) (g : Geometry) :
    (∀ c, isCoordinateNearEvent measure tol event (Geometry.point c) = -1) ∧
    (∀ cs, geomCoordinates g = some cs →
      ((∀ c ∈ cs, ¬ measure event c < tol) →
        isCoordinateNearEvent measure tol event g = -1) ∧
      (∀ m, ∀ hm : m < cs.length,
        measure event cs[m] < tol →
        (∀ k, ∀ hk : k < cs.length, measure event cs[m] ≤ measure event cs[k]) →
        (∀ k, ∀ hk : k < cs.length, k < m →
          measure event cs[m] < measure event cs[k]) →
        isCoordinateNearEvent measure tol event g =
          if g.isPolygon = true ∧ (m = cs.length - 1 ∨ m = 0) then 0 else (m : ℤ))) := by
  refine ⟨fun c => rfl, fun cs hcs => ?_⟩
  have hInvNil : ClosestInv measure tol event g.isPolygon (cs.length - 1) [] none := by
    intro x hx
    simp at hx
  have hInv := closestLoop_inv measure tol event g.isPolygon (cs.length - 1) cs [] none hInvNil
  rw [List.nil_append] at hInv
  rw [List.length_nil] at hInv
  constructor
  · intro hnone
    rcases hloop : closestLoop measure tol event g.isPolygon (cs.length - 1) cs
        0 none with - | ⟨d, idx⟩
    · simp [isCoordinateNearEvent, hcs, hloop]
    · rw [hloop] at hInv
      simp only [ClosestInv] at hInv
      obtain ⟨m, hm, -, -, htol, -, -⟩ := hInv
      exact absurd htol (hnone _ (List.getElem_mem hm))
  · intro m hm hmtol hmin hstrict
    rcases hloop : closestLoop measure tol event g.isPolygon (cs.length - 1) cs
        0 none with - | ⟨d, idx⟩
    · rw [hloop] at hInv
      simp only [ClosestInv] at hInv
      exact absurd hmtol (hInv _ (List.getElem_mem hm))
    · rw [hloop] at hInv
      simp only [ClosestInv] at hInv
      obtain ⟨m1, hm1, hd, hidx, htol1, hmin1, hstrict1⟩ := hInv
      have hmm : m1 = m := by
        by_contra hne
        rcases Nat.lt_or_ge m1 m with hlt | hge
        · exact absurd (hmin1 m hm) (not_le_of_lt (hstrict m1 hm1 hlt))
        · have hlt : m < m1 := by omega
          exact absurd (hmin m1 hm1) (not_le_of_lt (hstrict1 m hm hlt))
      subst hmm
      have hres : isCoordinateNearEvent measure tol event g = idx := by
        simp [isCoordinateNearEvent, hcs, hloop]
      rw [hres, hidx]
      rfl

/-- Witness for the C3 theorem: the spec's hit-test scenario — on the ring
`[[0,0],[0,10],[10,10],[10,0],[0,0]]` with the pointer within tolerance of the screen
position of `[0,0]` (identity projection, taxicab pixel distance, tolerance 1), the
returned index is `0`, not `4`. -/
theorem isCoordinateNearEvent_spec_witness :
    ((0 : ℕ) < ring0.length) ∧
    isCoordinateNearEvent taxicabMeasure 1 ⟨0, 0, 0, 0⟩ (Geometry.polygon ring0) = 0 := by
  have h0 : (0 : ℕ) < ring0.length := by norm_num [ring0]
  have h := (isCoordinateNearEvent_spec taxicabMeasure 1 ⟨0, 0, 0, 0⟩
    (Geometry.polygon ring0)).2 ring0 rfl
  have htol : taxicabMeasure ⟨0, 0, 0, 0⟩ ring0[0] < 1 := by
    norm_num [taxicabMeasure, ring0]
  have hmin : ∀ k, ∀ hk : k < ring0.length,
      taxicabMeasure ⟨0, 0, 0, 0⟩ ring0[0] ≤ taxicabMeasure ⟨0, 0, 0, 0⟩ ring0[k] := by
    intro k hk
    have hk5 : k < 5 := by simpa [ring0] using hk
    interval_cases k <;> norm_num [taxicabMeasure, ring0]
  have hstrict : ∀ k, ∀ hk : k < ring0.length, k < 0 →
      taxicabMeasure ⟨0, 0, 0, 0⟩ ring0[0] < taxicabMeasure ⟨0, 0, 0, 0⟩ ring0[k] :=
    fun k hk hk0 => absurd hk0 (Nat.not_lt_zero k)
  have hres := h.2 0 h0 htol hmin hstrict
  refine ⟨h0, ?_⟩
  rw [hres, if_pos ⟨rfl, Or.inr rfl⟩]
